import Mathlib

/-
  Verification of the routing core (`routes.go`) of the mesh overlay network.

  The `Routes` value, its four route tables, the read accessors, the lazy
  broadcast cache fill, the serializer control loop with its coalesced
  recalculate signal and barrier, and the neighbour sampler are translated
  directly from the source.  The external collaborators (the peer directory,
  the per-source reachability primitive `Peer.Routes`, and the neighbour
  enumerator `ForEachConnectedPeer`) are not part of the source fragment; they
  are modelled from their contracts in the specification and are marked as
  such in their doc comments.

  Concurrency is embedded sequentially: the serializer is the only writer, so
  its processing of requests is a totally ordered sequence of state
  transformations; mutex-protected reads are plain reads of the state.  Each
  state-transforming operation additionally returns the ordered list of
  observable events it produces (replies to callers, broadcast-derivation
  invocations, cache stores, change callbacks, barrier acknowledgements), so
  that ordering claims become claims about event lists.
-/

namespace Mesh

/-- Peer identifiers are opaque, totally ordered and hashable; we use natural
numbers.  In the source `PeerName` is an integer type whose zero value is the
reserved sentinel. -/
abbrev PeerName := Nat

/-- The reserved sentinel denoting "no next hop"; in the source it is the zero
value of `PeerName`. -/
def UnknownPeerName : PeerName := 0

/-- Modelled from the spec: a directional connection of a peer, carrying the
connection-quality flags (established, symmetric) used by the
connection-quality filter. -/
structure Connection where
  toName : PeerName
  established : Bool
  symmetric : Bool
deriving DecidableEq

/-- Modelled from the spec: a peer of the directory, with its name and its
directly-connected neighbours. -/
structure Peer where
  name : PeerName
  connections : List Connection
deriving DecidableEq

/-- Modelled from the spec: the peer directory (the topology provider's
membership snapshot). -/
structure Peers where
  peers : List Peer
deriving DecidableEq

/-- Modelled from the spec: `peers.byName`, name resolution in the peer
directory. -/
def Peers.byName (ps : Peers) (n : PeerName) : Option Peer :=
  ps.peers.find? (fun p => p.name == n)

/-- The connection-quality filter: under `establishedAndSymmetric = true` only
connections that are both established and symmetric qualify; under `false`
all connections qualify. -/
def connOK (establishedAndSymmetric : Bool) (c : Connection) : Bool :=
  if establishedAndSymmetric then c.established && c.symmetric else true

/-- The directed edges of the topology under the given connection-quality
filter. -/
def Peers.edges (ps : Peers) (establishedAndSymmetric : Bool) :
    List (PeerName × PeerName) :=
  ps.peers.flatMap
    (fun p => (p.connections.filter (connOK establishedAndSymmetric)).map
      (fun c => (p.name, c.toName)))

/-- One expansion step of the reachability closure: add every edge target whose
edge source is already reached. -/
def reachStep (es : List (PeerName × PeerName)) (s : List PeerName) :
    List PeerName :=
  s ++ (es.filter (fun e => decide (e.1 ∈ s))).map (fun e => e.2)

/-- Iterated expansion of the reachability closure. -/
def reachIter (es : List (PeerName × PeerName)) : Nat → List PeerName → List PeerName
  | 0, s => s
  | n + 1, s => reachIter es n (reachStep es s)

/-- Modelled from the spec: the set of peers reachable from `src` under the
connection-quality filter, as computed by the topology provider.  The closure
iteration is deduplicated so that, as in a set, each reachable peer is listed
exactly once. -/
def reachableFrom (ps : Peers) (src : PeerName) (establishedAndSymmetric : Bool) :
    List PeerName :=
  (reachIter (ps.edges establishedAndSymmetric) ps.peers.length [src]).dedup

/-- Modelled from the spec: the names of the directly-connected neighbours of
`src` whose links satisfy the connection-quality filter. -/
def neighboursOf (ps : Peers) (src : PeerName) (establishedAndSymmetric : Bool) :
    List PeerName :=
  match ps.byName src with
  | none => []
  | some p => (p.connections.filter (connOK establishedAndSymmetric)).map
      (fun c => c.toName)

/-- Modelled from the spec: the direct next hop from `src` towards a reachable
destination --- the first filtered neighbour of `src` from which the
destination is reachable. -/
def firstHop (ps : Peers) (src : PeerName) (establishedAndSymmetric : Bool)
    (dst : PeerName) : PeerName :=
  ((neighboursOf ps src establishedAndSymmetric).find?
    (fun n => decide (dst ∈ reachableFrom ps n establishedAndSymmetric))).getD
    UnknownPeerName

/-- `unicastRoutes`: mapping from destination name to next-hop name, as an
association list (first binding wins, mirroring map semantics). -/
abbrev unicastRoutes := List (PeerName × PeerName)

/-- `broadcastRoutes`: mapping from broadcast-origin name to the list of
neighbour names to forward to. -/
abbrev broadcastRoutes := List (PeerName × List PeerName)

/-- Modelled from the spec: the complete next-hop table rooted at `src` under
the filter --- the source maps to the sentinel, and every other reachable
peer maps to its direct next hop.  Like the source's map, it holds exactly
one entry per destination (`reachableFrom` lists each peer once), so its
length is the number of known destinations. -/
def peerRoutesTable (ps : Peers) (src : PeerName)
    (establishedAndSymmetric : Bool) : unicastRoutes :=
  (src, UnknownPeerName) ::
    ((reachableFrom ps src establishedAndSymmetric).filter (fun d => d != src)).map
      (fun d => (d, firstHop ps src establishedAndSymmetric d))

/-- Modelled from the spec: the reachability primitive `Peer.Routes`.  Given a
source peer, an optional peer to test (none meaning only the table is
wanted), and the filter, it returns whether the tested peer is in the
reachable set from the source, together with the full next-hop table rooted
at the source. -/
def peerRoutes (ps : Peers) (src : PeerName) (stopAt : Option PeerName)
    (establishedAndSymmetric : Bool) : Bool × unicastRoutes :=
  (match stopAt with
   | none => true
   | some p => decide (p ∈ reachableFrom ps src establishedAndSymmetric),
   peerRoutesTable ps src establishedAndSymmetric)

/-- Modelled from the spec: the neighbour enumerator `ForEachConnectedPeer`,
collecting the names of the local peer's filtered neighbours whose presence
is consistent with the given reachability table. -/
def forEachConnectedPeer (ps : Peers) (selfName : PeerName)
    (establishedAndSymmetric : Bool) (reached : unicastRoutes) : List PeerName :=
  (neighboursOf ps selfName establishedAndSymmetric).filter
    (fun n => (reached.lookup n).isSome)

/-- The observable events emitted by serializer-processed work: a broadcast
derivation invocation, a reply to a blocked caller, a cache store, a change
callback invocation, and the barrier acknowledgement (`close(done)`). -/
inductive REvent where
  | compute (name : PeerName) (establishedAndSymmetric : Bool)
  | reply (hops : List PeerName)
  | store (name : PeerName) (hops : List PeerName)
  | callback (id : Nat)
  | closeDone
deriving DecidableEq

/-- The `Routes` value.  The mutex and the three channels of the source are
represented by the sequential embedding (the serializer state lives in
`SerState` below); change callbacks are represented by opaque identifiers
kept in registration order. -/
structure RoutesState where
  ourselfName : PeerName
  peers : Peers
  onChange : List Nat
  unicast : unicastRoutes
  unicastAll : unicastRoutes
  broadcast : broadcastRoutes
  broadcastAll : broadcastRoutes
deriving DecidableEq

/-- `NewRoutes`: the freshly constructed `Routes` value, seeded with the local
peer's entries only. -/
def NewRoutes (ourselfName : PeerName) (peers : Peers) : RoutesState :=
  { ourselfName := ourselfName
    peers := peers
    onChange := []
    unicast := [(ourselfName, UnknownPeerName)]
    unicastAll := [(ourselfName, UnknownPeerName)]
    broadcast := [(ourselfName, [])]
    broadcastAll := [(ourselfName, [])] }

/-- `OnChange`: append a callback to the registered change callbacks. -/
def RoutesState.OnChange (s : RoutesState) (callback : Nat) : RoutesState :=
  { s with onChange := s.onChange ++ [callback] }

/-- `PeerNames`: the membership snapshot of the peer directory. -/
def RoutesState.PeerNames (s : RoutesState) : List PeerName :=
  s.peers.peers.map (fun p => p.name)

/-- `Unicast`: next hop to the named peer over established and symmetric
connections; a map miss yields the zero value and `found = false`. -/
def RoutesState.Unicast (s : RoutesState) (name : PeerName) : PeerName × Bool :=
  match s.unicast.lookup name with
  | some hop => (hop, true)
  | none => (UnknownPeerName, false)

/-- `UnicastAll`: next hop to the named peer over all connections. -/
def RoutesState.UnicastAll (s : RoutesState) (name : PeerName) : PeerName × Bool :=
  match s.unicastAll.lookup name with
  | some hop => (hop, true)
  | none => (UnknownPeerName, false)

/-- `calculateUnicast`: ask the reachability primitive for the local peer's
complete next-hop table under the filter. -/
def RoutesState.calculateUnicast (s : RoutesState)
    (establishedAndSymmetric : Bool) : unicastRoutes :=
  (peerRoutes s.peers s.ourselfName none establishedAndSymmetric).2

/-- `calculateBroadcast`: derive the forward set for a broadcast originating at
`name`.  An origin absent from the peer directory short-circuits to the
empty set; otherwise the local peer's filtered neighbours consistent with
the origin's reachability table are collected, provided the local peer is
reachable from the origin. -/
def RoutesState.calculateBroadcast (s : RoutesState) (name : PeerName)
    (establishedAndSymmetric : Bool) : List PeerName :=
  match s.peers.byName name with
  | none => []
  | some peer =>
    match peerRoutes s.peers peer.name (some s.ourselfName) establishedAndSymmetric with
    | (found, reached) =>
      if found then
        forEachConnectedPeer s.peers s.ourselfName establishedAndSymmetric reached
      else []

/-- `calculate`: the full recalculation.  All four tables are replaced
wholesale with freshly derived ones (the new broadcast maps contain only the
local peer's eagerly computed entries), then the registered callbacks are
invoked in registration order.  The returned event list records those
callback invocations. -/
def RoutesState.calculate (s : RoutesState) : RoutesState × List REvent :=
  ({ s with
      unicast := s.calculateUnicast true
      unicastAll := s.calculateUnicast false
      broadcast := [(s.ourselfName, s.calculateBroadcast s.ourselfName true)]
      broadcastAll := [(s.ourselfName, s.calculateBroadcast s.ourselfName false)] },
   s.onChange.map REvent.callback)

/-- The broadcast table selected by the filter flag: `lookupOrCalculate` is
called with `&routes.broadcast` for established-and-symmetric and with
`&routes.broadcastAll` for all connections. -/
def RoutesState.getBroadcastTable (s : RoutesState)
    (establishedAndSymmetric : Bool) : broadcastRoutes :=
  if establishedAndSymmetric then s.broadcast else s.broadcastAll

/-- Write through the table pointer selected by the filter flag. -/
def RoutesState.setBroadcastTable (s : RoutesState)
    (establishedAndSymmetric : Bool) (m : broadcastRoutes) : RoutesState :=
  if establishedAndSymmetric then { s with broadcast := m }
  else { s with broadcastAll := m }

/-- The closure submitted to the serializer on a broadcast cache miss: it
re-checks the table, replies with the cached entry if one appeared, and
otherwise derives the forward set, replies with it, and then stores it. -/
def RoutesState.fillAction (s : RoutesState) (name : PeerName)
    (establishedAndSymmetric : Bool) :
    List PeerName × RoutesState × List REvent :=
  match (s.getBroadcastTable establishedAndSymmetric).lookup name with
  | some hops => (hops, s, [REvent.reply hops])
  | none =>
    let hops := s.calculateBroadcast name establishedAndSymmetric
    (hops,
     s.setBroadcastTable establishedAndSymmetric
       ((name, hops) :: s.getBroadcastTable establishedAndSymmetric),
     [REvent.compute name establishedAndSymmetric, REvent.reply hops,
      REvent.store name hops])

/-- `lookupOrCalculate`: the fast path answers from the protected table with no
events; on a miss the fill action is funneled through the serializer. -/
def RoutesState.lookupOrCalculate (s : RoutesState) (name : PeerName)
    (establishedAndSymmetric : Bool) :
    List PeerName × RoutesState × List REvent :=
  match (s.getBroadcastTable establishedAndSymmetric).lookup name with
  | some hops => (hops, s, [])
  | none => s.fillAction name establishedAndSymmetric

/-- `Broadcast`: forward set for a broadcast originating at `name`, over
established and symmetric connections. -/
def RoutesState.Broadcast (s : RoutesState) (name : PeerName) :
    List PeerName × RoutesState × List REvent :=
  s.lookupOrCalculate name true

/-- `BroadcastAll`: forward set for a broadcast originating at `name`, over all
connections. -/
def RoutesState.BroadcastAll (s : RoutesState) (name : PeerName) :
    List PeerName × RoutesState × List REvent :=
  s.lookupOrCalculate name false

/-- Set-insertion into the accumulated destination set of the sampler
(`destinations[dst] = struct{}{}`). -/
def insertName (n : PeerName) (s : List PeerName) : List PeerName :=
  if n ∈ s then s else n :: s

/-- The sampling loop of `RandomNeighbours`: walk the table entries in
iteration order, accumulate eligible next-hop values, and stop as soon as
the accumulated set has reached `count` members. -/
def sampleLoop (count : Nat) (except : PeerName) :
    List (PeerName × PeerName) → List PeerName → List PeerName
  | [], dests => dests
  | (_, dst) :: rest, dests =>
    if dst ≠ UnknownPeerName ∧ dst ≠ except then
      if count ≤ (insertName dst dests).length then insertName dst dests
      else sampleLoop count except rest (insertName dst dests)
    else sampleLoop count except rest dests

/-- `RandomNeighbours`: choose up to `log2` of the peer count distinct
next-hop neighbours from the all-connections unicast table, excluding the
given name and the sentinel.  The unspecified map iteration order is made
explicit as the `order` argument, a permutation of the table's entries.
`int(math.Log2(n))` is modelled as `Nat.log2`. -/
def RoutesState.RandomNeighbours (s : RoutesState) (except : PeerName)
    (order : List (PeerName × PeerName)) : List PeerName :=
  sampleLoop (Nat.log2 s.unicastAll.length) except order []

/-- The serializer: the routes value it owns, the one-slot recalculate signal
buffer, and a counting hook on the recalculation engine. -/
structure SerState where
  routes : RoutesState
  pending : Bool
  calcCount : Nat
deriving DecidableEq

/-- `Recalculate`: non-blocking send into the one-slot buffer; if a signal is
already pending the send is dropped (coalescing). -/
def SerState.Recalculate (st : SerState) : SerState :=
  { st with pending := true }

/-- The `case <-recalculate` arm of the control loop: consume a pending signal
and perform a full recalculation. -/
def SerState.handleRecalc (st : SerState) : SerState × List REvent :=
  if st.pending then
    ({ routes := (st.routes.calculate).1, pending := false,
       calcCount := st.calcCount + 1 }, (st.routes.calculate).2)
  else (st, [])

/-- The `case done := <-wait` arm of the control loop: drain a pending
recalculate signal synchronously (performing the recalculation, callbacks
included) before closing the caller's completion token. -/
def SerState.handleWait (st : SerState) : SerState × List REvent :=
  if st.pending then
    ({ routes := (st.routes.calculate).1, pending := false,
       calcCount := st.calcCount + 1 },
     (st.routes.calculate).2 ++ [REvent.closeDone])
  else (st, [REvent.closeDone])

/-- Serialized processing of a queue of broadcast cache-fill requests
(name, filter flag), concatenating the emitted events. -/
def processFills : RoutesState → List (PeerName × Bool) → RoutesState × List REvent
  | s, [] => (s, [])
  | s, req :: rest =>
    (((processFills (s.fillAction req.1 req.2).2.1 rest).1,
      (s.fillAction req.1 req.2).2.2 ++
        (processFills (s.fillAction req.1 req.2).2.1 rest).2))

/-- The number of broadcast-derivation invocations for a given origin and
table recorded in an event list. -/
def computeCount (name : PeerName) (establishedAndSymmetric : Bool)
    (evs : List REvent) : Nat :=
  evs.countP (fun ev => decide (ev = REvent.compute name establishedAndSymmetric))

/-- The destination keys of a unicast table. -/
def tableKeys (m : unicastRoutes) : List PeerName := m.map (fun e => e.1)

/-- The number of distinct eligible next-hop values of a unicast table
(values other than the sentinel and the excluded name). -/
def distinctNeighbours (m : unicastRoutes) (except : PeerName) : Nat :=
  (((m.map (fun e => e.2)).filter
    (fun d => d != UnknownPeerName && d != except)).dedup).length

/-- The states of a `Routes` value reachable from construction by any
sequence of full recalculations, lazy broadcast cache fills, and callback
registrations. -/
inductive Reachable : RoutesState → Prop where
  | init (ourselfName : PeerName) (peers : Peers) :
      Reachable (NewRoutes ourselfName peers)
  | recalc {s : RoutesState} : Reachable s → Reachable (s.calculate).1
  | fill {s : RoutesState} (name : PeerName) (establishedAndSymmetric : Bool) :
      Reachable s → Reachable (s.lookupOrCalculate name establishedAndSymmetric).2.1
  | register {s : RoutesState} (callback : Nat) :
      Reachable s → Reachable (s.OnChange callback)

/-! ### Association-list lookup lemmas -/

theorem lookup_cons_self {β : Type} (a : PeerName) (b : β) (l : List (PeerName × β)) :
    ((a, b) :: l).lookup a = some b := by
  simp [List.lookup]

theorem lookup_cons_ne {β : Type} {a k : PeerName} (b : β) (l : List (PeerName × β))
    (h : a ≠ k) : ((k, b) :: l).lookup a = l.lookup a := by
  have hb : (a == k) = false := by simp [h]
  simp [List.lookup, hb]

theorem lookup_mem {β : Type} {a : PeerName} {b : β} :
    ∀ {l : List (PeerName × β)}, l.lookup a = some b → (a, b) ∈ l := by
  intro l
  induction l with
  | nil => intro h; simp [List.lookup] at h
  | cons e l ih =>
    intro h
    obtain ⟨k, v⟩ := e
    by_cases hk : a = k
    · subst hk
      rw [lookup_cons_self] at h
      cases h
      exact List.mem_cons_self _ _
    · rw [lookup_cons_ne _ _ hk] at h
      exact List.mem_cons_of_mem _ (ih h)

theorem isSome_lookup_cons {β : Type} (a k : PeerName) (b : β)
    (l : List (PeerName × β)) (h : (l.lookup a).isSome = true) :
    (((k, b) :: l).lookup a).isSome = true := by
  by_cases hk : a = k
  · subst hk; rw [lookup_cons_self]; rfl
  · rw [lookup_cons_ne _ _ hk]; exact h

/-! ### Table-selection lemmas -/

theorem get_set_same (s : RoutesState) (f : Bool) (m : broadcastRoutes) :
    (s.setBroadcastTable f m).getBroadcastTable f = m := by
  cases f <;> simp [RoutesState.getBroadcastTable, RoutesState.setBroadcastTable]

theorem get_set (s : RoutesState) (f g : Bool) (m : broadcastRoutes) :
    (s.setBroadcastTable f m).getBroadcastTable g =
      if g = f then m else s.getBroadcastTable g := by
  cases f <;> cases g <;>
    simp [RoutesState.getBroadcastTable, RoutesState.setBroadcastTable]

theorem set_preserves_rest (s : RoutesState) (f : Bool) (m : broadcastRoutes) :
    (s.setBroadcastTable f m).ourselfName = s.ourselfName ∧
    (s.setBroadcastTable f m).peers = s.peers ∧
    (s.setBroadcastTable f m).onChange = s.onChange ∧
    (s.setBroadcastTable f m).unicast = s.unicast ∧
    (s.setBroadcastTable f m).unicastAll = s.unicastAll := by
  cases f <;> simp [RoutesState.setBroadcastTable]

/-! ### Shapes of the state transformers -/

theorem fillAction_of_present {s : RoutesState} {name : PeerName} {f : Bool}
    {hops : List PeerName} (h : (s.getBroadcastTable f).lookup name = some hops) :
    s.fillAction name f = (hops, s, [REvent.reply hops]) := by
  simp [RoutesState.fillAction, h]

theorem fillAction_of_absent {s : RoutesState} {name : PeerName} {f : Bool}
    (h : (s.getBroadcastTable f).lookup name = none) :
    s.fillAction name f =
      (s.calculateBroadcast name f,
       s.setBroadcastTable f ((name, s.calculateBroadcast name f) ::
         s.getBroadcastTable f),
       [REvent.compute name f, REvent.reply (s.calculateBroadcast name f),
        REvent.store name (s.calculateBroadcast name f)]) := by
  simp [RoutesState.fillAction, h]

theorem lookupOrCalculate_of_present {s : RoutesState} {name : PeerName} {f : Bool}
    {hops : List PeerName} (h : (s.getBroadcastTable f).lookup name = some hops) :
    s.lookupOrCalculate name f = (hops, s, []) := by
  simp [RoutesState.lookupOrCalculate, h]

theorem lookupOrCalculate_of_absent {s : RoutesState} {name : PeerName} {f : Bool}
    (h : (s.getBroadcastTable f).lookup name = none) :
    s.lookupOrCalculate name f = s.fillAction name f := by
  simp [RoutesState.lookupOrCalculate, h]

theorem calculate_fields (s : RoutesState) :
    (s.calculate).1.ourselfName = s.ourselfName ∧
    (s.calculate).1.peers = s.peers ∧
    (s.calculate).1.onChange = s.onChange ∧
    (s.calculate).1.unicast = s.calculateUnicast true ∧
    (s.calculate).1.unicastAll = s.calculateUnicast false ∧
    (s.calculate).1.broadcast =
      [(s.ourselfName, s.calculateBroadcast s.ourselfName true)] ∧
    (s.calculate).1.broadcastAll =
      [(s.ourselfName, s.calculateBroadcast s.ourselfName false)] ∧
    (s.calculate).2 = s.onChange.map REvent.callback := by
  simp [RoutesState.calculate]

/-! ### Invariants of reachable states -/

/-- The self-entry invariant: both unicast tables map the local name to the
sentinel, and both broadcast tables contain an entry for the local name. -/
def SelfInv (s : RoutesState) : Prop :=
  s.unicast.lookup s.ourselfName = some UnknownPeerName ∧
  s.unicastAll.lookup s.ourselfName = some UnknownPeerName ∧
  (s.broadcast.lookup s.ourselfName).isSome = true ∧
  (s.broadcastAll.lookup s.ourselfName).isSome = true

theorem selfInv_getBroadcastTable {s : RoutesState} (h : SelfInv s) (f : Bool) :
    ((s.getBroadcastTable f).lookup s.ourselfName).isSome = true := by
  cases f
  · exact h.2.2.2
  · exact h.2.2.1

theorem reachable_selfInv {s : RoutesState} (h : Reachable s) : SelfInv s := by
  induction h with
  | init o ps =>
    refine ⟨?_, ?_, ?_, ?_⟩ <;> simp [NewRoutes, lookup_cons_self]
  | recalc h ih =>
    rename_i s
    obtain ⟨h1, h2, h3, h4, h5, h6, h7, h8⟩ := calculate_fields s
    refine ⟨?_, ?_, ?_, ?_⟩ <;> rw [h1] <;>
      [rw [h4]; rw [h5]; rw [h6]; rw [h7]] <;>
      simp [RoutesState.calculateUnicast, peerRoutes, peerRoutesTable,
        lookup_cons_self]
  | fill name f h ih =>
    rename_i s
    cases hl : (s.getBroadcastTable f).lookup name with
    | some hops =>
      rw [lookupOrCalculate_of_present hl]
      exact ih
    | none =>
      rw [lookupOrCalculate_of_absent hl, fillAction_of_absent hl]
      obtain ⟨e1, e2, e3, e4, e5⟩ :=
        set_preserves_rest s f ((name, s.calculateBroadcast name f) ::
          s.getBroadcastTable f)
      obtain ⟨i1, i2, i3, i4⟩ := ih
      refine ⟨?_, ?_, ?_, ?_⟩
      · rw [e1, e4]; exact i1
      · rw [e1, e5]; exact i2
      · rw [e1]
        have := get_set s f true ((name, s.calculateBroadcast name f) ::
          s.getBroadcastTable f)
        by_cases hf : (true : Bool) = f
        · subst hf
          rw [show (s.setBroadcastTable true _).broadcast =
                (s.setBroadcastTable true ((name, s.calculateBroadcast name true) ::
                  s.getBroadcastTable true)).getBroadcastTable true from rfl]
          rw [get_set_same]
          exact isSome_lookup_cons _ _ _ _
            (by simpa [RoutesState.getBroadcastTable] using i3)
        · have hfF : f = false := by
            cases f
            · rfl
            · exact absurd rfl hf
          subst hfF
          simpa [RoutesState.setBroadcastTable] using i3
      · rw [e1]
        by_cases hf : (false : Bool) = f
        · subst hf
          rw [show (s.setBroadcastTable false _).broadcastAll =
                (s.setBroadcastTable false ((name, s.calculateBroadcast name false) ::
                  s.getBroadcastTable false)).getBroadcastTable false from rfl]
          rw [get_set_same]
          exact isSome_lookup_cons _ _ _ _
            (by simpa [RoutesState.getBroadcastTable] using i4)
        · have hfT : f = true := by
            cases f
            · exact absurd rfl hf
            · rfl
          subst hfT
          simpa [RoutesState.setBroadcastTable] using i4
  | register cb h ih =>
    exact ih

theorem calculateBroadcast_of_absent {s : RoutesState} {name : PeerName}
    (f : Bool) (h : s.peers.byName name = none) :
    s.calculateBroadcast name f = [] := by
  simp [RoutesState.calculateBroadcast, h]

/-- Every cached broadcast entry whose origin is absent from the peer
directory is the empty forward set. -/
def StaleInv (s : RoutesState) : Prop :=
  ∀ (name : PeerName) (f : Bool) (v : List PeerName),
    s.peers.byName name = none →
    (s.getBroadcastTable f).lookup name = some v → v = []

theorem reachable_staleInv {s : RoutesState} (h : Reachable s) : StaleInv s := by
  induction h with
  | init o ps =>
    intro name f v hb hl
    have hm := lookup_mem hl
    cases f <;> simp [NewRoutes, RoutesState.getBroadcastTable] at hm <;>
      exact hm.2
  | recalc h ih =>
    rename_i s
    intro name f v hb hl
    obtain ⟨h1, h2, h3, h4, h5, h6, h7, h8⟩ := calculate_fields s
    rw [h2] at hb
    have hm := lookup_mem hl
    have hself : name = s.ourselfName ∧ v = s.calculateBroadcast s.ourselfName f := by
      cases f <;>
        simp [RoutesState.getBroadcastTable, h6, h7] at hm <;>
        exact ⟨hm.1, hm.2⟩
    obtain ⟨rfl, rfl⟩ := hself
    exact calculateBroadcast_of_absent f hb
  | fill nm ff h ih =>
    rename_i s
    intro name f v hb hl
    cases hlk : (s.getBroadcastTable ff).lookup nm with
    | some hops =>
      rw [lookupOrCalculate_of_present hlk] at hb hl
      exact ih name f v hb hl
    | none =>
      rw [lookupOrCalculate_of_absent hlk, fillAction_of_absent hlk] at hb hl
      obtain ⟨e1, e2, e3, e4, e5⟩ :=
        set_preserves_rest s ff ((nm, s.calculateBroadcast nm ff) ::
          s.getBroadcastTable ff)
      rw [e2] at hb
      rw [get_set] at hl
      by_cases hf : f = ff
      · rw [if_pos hf] at hl
        by_cases hn : name = nm
        · subst hn
          rw [lookup_cons_self] at hl
          cases hl
          exact calculateBroadcast_of_absent ff hb
        · rw [lookup_cons_ne _ _ hn] at hl
          subst hf
          exact ih name f v hb hl
      · rw [if_neg hf] at hl
        exact ih name f v hb hl
  | register cb h ih =>
    intro name f v hb hl
    exact ih name f v hb hl

/-! ### Claim theorems: C1 and C4 -/

/-- Claim C1: in every reachable state of a `Routes` value, the `unicast` and
`unicastAll` tables map the local peer's name to `UnknownPeerName`, the
`broadcast` and `broadcastAll` tables contain an entry for the local peer's
name, and a `Broadcast`/`BroadcastAll` query for the local peer is answered
from the cache by the fast path (the state is unchanged and no serializer
events are produced), so it never takes the lazy-fill path. -/
theorem self_entry_invariant (s : RoutesState) (h : Reachable s) :
    s.unicast.lookup s.ourselfName = some UnknownPeerName ∧
    s.unicastAll.lookup s.ourselfName = some UnknownPeerName ∧
    (s.broadcast.lookup s.ourselfName).isSome = true ∧
    (s.broadcastAll.lookup s.ourselfName).isSome = true ∧
    (∀ f : Bool, s.lookupOrCalculate s.ourselfName f =
      (((s.getBroadcastTable f).lookup s.ourselfName).getD [], s, [])) := by
  obtain ⟨i1, i2, i3, i4⟩ := reachable_selfInv h
  refine ⟨i1, i2, i3, i4, ?_⟩
  intro f
  have hs := selfInv_getBroadcastTable ⟨i1, i2, i3, i4⟩ f
  cases hl : (s.getBroadcastTable f).lookup s.ourselfName with
  | none => rw [hl] at hs; cases hs
  | some hops => simp [lookupOrCalculate_of_present hl, hl]

/-- Witness for C1 at a concrete freshly constructed state. -/
theorem self_entry_invariant_witness :
    Reachable (NewRoutes 1 ⟨[]⟩) ∧
    ((NewRoutes 1 ⟨[]⟩).unicast.lookup (NewRoutes 1 ⟨[]⟩).ourselfName =
        some UnknownPeerName ∧
      (NewRoutes 1 ⟨[]⟩).unicastAll.lookup (NewRoutes 1 ⟨[]⟩).ourselfName =
        some UnknownPeerName ∧
      ((NewRoutes 1 ⟨[]⟩).broadcast.lookup (NewRoutes 1 ⟨[]⟩).ourselfName).isSome
        = true ∧
      ((NewRoutes 1 ⟨[]⟩).broadcastAll.lookup
        (NewRoutes 1 ⟨[]⟩).ourselfName).isSome = true ∧
      (∀ f : Bool, (NewRoutes 1 ⟨[]⟩).lookupOrCalculate
          (NewRoutes 1 ⟨[]⟩).ourselfName f =
        ((((NewRoutes 1 ⟨[]⟩).getBroadcastTable f).lookup
            (NewRoutes 1 ⟨[]⟩).ourselfName).getD [], NewRoutes 1 ⟨[]⟩, []))) :=
  ⟨Reachable.init 1 ⟨[]⟩,
   self_entry_invariant (NewRoutes 1 ⟨[]⟩) (Reachable.init 1 ⟨[]⟩)⟩

/-- Claim C4: operations are total on unknown peers.  A name with no entry in
the `unicast` (resp. `unicastAll`) table yields `found = false` from
`Unicast` (resp. `UnicastAll`); a name absent from the peer directory makes
the broadcast derivation return the empty set; and consequently, in any
reachable state, a `Broadcast`/`BroadcastAll` query for a name absent from
the directory returns the empty list.  No operation can fault: every
operation of the embedding is a total function. -/
theorem totality_unknown_peers (s : RoutesState) (name : PeerName) (f : Bool) :
    (s.unicast.lookup name = none → (s.Unicast name).2 = false) ∧
    (s.unicastAll.lookup name = none → (s.UnicastAll name).2 = false) ∧
    (s.peers.byName name = none → s.calculateBroadcast name f = []) ∧
    (Reachable s → s.peers.byName name = none →
      (s.lookupOrCalculate name f).1 = []) := by
  refine ⟨?_, ?_, ?_, ?_⟩
  · intro h; simp [RoutesState.Unicast, h]
  · intro h; simp [RoutesState.UnicastAll, h]
  · intro h; exact calculateBroadcast_of_absent f h
  · intro hr hb
    cases hl : (s.getBroadcastTable f).lookup name with
    | some v =>
      rw [lookupOrCalculate_of_present hl]
      exact reachable_staleInv hr name f v hb hl
    | none =>
      rw [lookupOrCalculate_of_absent hl, fillAction_of_absent hl]
      exact calculateBroadcast_of_absent f hb

/-- Witness for C4 at a concrete state and an unknown name. -/
theorem totality_unknown_peers_witness :
    ((NewRoutes 1 ⟨[]⟩).unicast.lookup 5 = none ∧
     (NewRoutes 1 ⟨[]⟩).unicastAll.lookup 5 = none ∧
     (NewRoutes 1 ⟨[]⟩).peers.byName 5 = none ∧
     Reachable (NewRoutes 1 ⟨[]⟩)) ∧
    (((NewRoutes 1 ⟨[]⟩).Unicast 5).2 = false ∧
     ((NewRoutes 1 ⟨[]⟩).UnicastAll 5).2 = false ∧
     (NewRoutes 1 ⟨[]⟩).calculateBroadcast 5 true = [] ∧
     ((NewRoutes 1 ⟨[]⟩).lookupOrCalculate 5 true).1 = []) := by
  have h := totality_unknown_peers (NewRoutes 1 ⟨[]⟩) 5 true
  refine ⟨⟨by decide, by decide, by decide, Reachable.init 1 ⟨[]⟩⟩,
    h.1 (by decide), h.2.1 (by decide), h.2.2.1 (by decide),
    h.2.2.2 (Reachable.init 1 ⟨[]⟩) (by decide)⟩

/-! ### Claim theorems: C2, C10, C6, C9 -/

/-- Claim C2: broadcast cache coherence.  If a `Broadcast`/`BroadcastAll`
query (`lookupOrCalculate` on the corresponding table) returns a set for a
previously uncached origin, then a subsequent query for the same origin,
with no recalculation in between, returns the identical set from the fast
path: the state is unchanged and no serializer events (in particular no
broadcast derivation) are produced. -/
theorem broadcast_cache_coherence (s : RoutesState) (name : PeerName) (f : Bool)
    (h : (s.getBroadcastTable f).lookup name = none) :
    ((s.lookupOrCalculate name f).2.1).lookupOrCalculate name f =
      ((s.lookupOrCalculate name f).1, (s.lookupOrCalculate name f).2.1, []) := by
  rw [lookupOrCalculate_of_absent h, fillAction_of_absent h]
  exact lookupOrCalculate_of_present
    (by rw [get_set_same]; exact lookup_cons_self _ _ _)

/-- Witness for C2: a fresh state with an uncached origin. -/
theorem broadcast_cache_coherence_witness :
    ((NewRoutes 1 ⟨[]⟩).getBroadcastTable true).lookup 7 = none ∧
    (((NewRoutes 1 ⟨[]⟩).lookupOrCalculate 7 true).2.1).lookupOrCalculate 7 true =
      (((NewRoutes 1 ⟨[]⟩).lookupOrCalculate 7 true).1,
       ((NewRoutes 1 ⟨[]⟩).lookupOrCalculate 7 true).2.1, []) :=
  ⟨by decide, broadcast_cache_coherence (NewRoutes 1 ⟨[]⟩) 7 true (by decide)⟩

/-- Claim C10: on a cache miss the serialized fill action caches exactly what
it returned --- the stored entry for the origin equals the value replied to
the caller --- and its event sequence is derivation, then reply, then cache
store, so the reply is delivered before the cache write. -/
theorem lazy_fill_caches_reply (s : RoutesState) (name : PeerName) (f : Bool)
    (h : (s.getBroadcastTable f).lookup name = none) :
    ((((s.fillAction name f).2.1).getBroadcastTable f).lookup name =
      some (s.fillAction name f).1) ∧
    (s.fillAction name f).2.2 =
      [REvent.compute name f, REvent.reply (s.fillAction name f).1,
       REvent.store name (s.fillAction name f).1] := by
  rw [fillAction_of_absent h]
  exact ⟨by rw [get_set_same]; exact lookup_cons_self _ _ _, rfl⟩

/-- Witness for C10: a fresh state with an uncached origin. -/
theorem lazy_fill_caches_reply_witness :
    ((NewRoutes 1 ⟨[]⟩).getBroadcastTable false).lookup 7 = none ∧
    (((((NewRoutes 1 ⟨[]⟩).fillAction 7 false).2.1).getBroadcastTable false).lookup 7 =
      some ((NewRoutes 1 ⟨[]⟩).fillAction 7 false).1 ∧
     ((NewRoutes 1 ⟨[]⟩).fillAction 7 false).2.2 =
      [REvent.compute 7 false,
       REvent.reply ((NewRoutes 1 ⟨[]⟩).fillAction 7 false).1,
       REvent.store 7 ((NewRoutes 1 ⟨[]⟩).fillAction 7 false).1]) :=
  ⟨by decide, lazy_fill_caches_reply (NewRoutes 1 ⟨[]⟩) 7 false (by decide)⟩

/-- Claim C6: a full recalculation replaces all four tables wholesale with
freshly derived ones --- every lazily cached broadcast entry is discarded
(any origin other than the local peer is absent afterwards) and only the
local peer's broadcast entries are re-seeded --- and then invokes exactly
the registered change callbacks in registration order; the lazy per-query
fill path never emits a callback event. -/
theorem wholesale_replacement_callbacks (s : RoutesState) (x : PeerName)
    (name : PeerName) (f : Bool) :
    (s.calculate).1.unicast = s.calculateUnicast true ∧
    (s.calculate).1.unicastAll = s.calculateUnicast false ∧
    (s.calculate).1.broadcast.lookup s.ourselfName =
      some (s.calculateBroadcast s.ourselfName true) ∧
    (s.calculate).1.broadcastAll.lookup s.ourselfName =
      some (s.calculateBroadcast s.ourselfName false) ∧
    (x ≠ s.ourselfName → (s.calculate).1.broadcast.lookup x = none ∧
      (s.calculate).1.broadcastAll.lookup x = none) ∧
    (s.calculate).2 = s.onChange.map REvent.callback ∧
    (∀ ev ∈ (s.lookupOrCalculate name f).2.2, ∀ id : Nat,
      ev ≠ REvent.callback id) := by
  obtain ⟨h1, h2, h3, h4, h5, h6, h7, h8⟩ := calculate_fields s
  refine ⟨h4, h5, ?_, ?_, ?_, h8, ?_⟩
  · rw [h6]; exact lookup_cons_self _ _ _
  · rw [h7]; exact lookup_cons_self _ _ _
  · intro hx
    constructor
    · rw [h6, lookup_cons_ne _ _ hx]; rfl
    · rw [h7, lookup_cons_ne _ _ hx]; rfl
  · intro ev hev id
    cases hl : (s.getBroadcastTable f).lookup name with
    | some hops =>
      rw [lookupOrCalculate_of_present hl] at hev
      cases hev
    | none =>
      rw [lookupOrCalculate_of_absent hl, fillAction_of_absent hl] at hev
      simp at hev
      rcases hev with h | h | h <;> subst h <;> intro hc <;> cases hc

/-- Witness for C6: a non-local origin is absent after recalculation. -/
theorem wholesale_replacement_callbacks_witness :
    ((3 : PeerName) ≠ (NewRoutes 1 ⟨[]⟩).ourselfName) ∧
    (((NewRoutes 1 ⟨[]⟩).calculate).1.broadcast.lookup 3 = none ∧
     ((NewRoutes 1 ⟨[]⟩).calculate).1.broadcastAll.lookup 3 = none) :=
  ⟨by decide,
   (wholesale_replacement_callbacks (NewRoutes 1 ⟨[]⟩) 3 2 true).2.2.2.2.1
     (by decide)⟩

/-- Claim C9: frame property of recalculation.  A full recalculation changes
only the four route-table fields: the registered callback list, the
local-peer handle, and the peers handle are unchanged, and the callbacks
invoked are exactly those registered at the time of the snapshot, in
registration order (`OnChange` appends to that order). -/
theorem recalculation_frame (s : RoutesState) (cb : Nat) :
    (s.calculate).1.onChange = s.onChange ∧
    (s.calculate).1.ourselfName = s.ourselfName ∧
    (s.calculate).1.peers = s.peers ∧
    (s.calculate).2 = s.onChange.map REvent.callback ∧
    (s.OnChange cb).onChange = s.onChange ++ [cb] := by
  obtain ⟨h1, h2, h3, h4, h5, h6, h7, h8⟩ := calculate_fields s
  exact ⟨h3, h1, h2, h8, rfl⟩

/-! ### Claim theorem: C3 -/

theorem recalculate_idem (st : SerState) :
    st.Recalculate.Recalculate = st.Recalculate := rfl

theorem recalculate_iterate {n : Nat} (hn : 1 ≤ n) (st : SerState) :
    SerState.Recalculate^[n] st = st.Recalculate := by
  induction n with
  | zero => cases hn
  | succ m ih =>
    rcases Nat.eq_or_lt_of_le hn with h | h
    · rw [← h]; simp
    · have hm : 1 ≤ m := Nat.lt_succ_iff.mp h
      rw [Function.iterate_succ_apply', ih hm, recalculate_idem]

/-- Claim C3: recalculation coalescing and barrier.  For any `n ≥ 1`, a burst
of `n` `Recalculate` calls from an idle serializer leaves exactly one
pending signal (every call beyond the first is a no-op), and the barrier
(`EnsureRecalculated`'s wait request) performs exactly one full
recalculation attributable to the burst, acknowledging the caller only
after that recalculation's change callbacks, as witnessed by the event
sequence in which every callback event precedes `closeDone`.  If the loop
instead consumes the signal via its recalculate arm first, the total is
still one recalculation and the subsequent barrier performs none. -/
theorem recalculation_coalescing (st : SerState) (n : Nat)
    (_hp : st.pending = false) (hn : 1 ≤ n) :
    (SerState.Recalculate^[n] st = st.Recalculate) ∧
    ((SerState.Recalculate^[n] st).handleWait.1.calcCount = st.calcCount + 1) ∧
    ((SerState.Recalculate^[n] st).handleWait.2 =
      st.routes.onChange.map REvent.callback ++ [REvent.closeDone]) ∧
    ((SerState.Recalculate^[n] st).handleRecalc.1.calcCount = st.calcCount + 1) ∧
    ((SerState.Recalculate^[n] st).handleRecalc.1.handleWait.1.calcCount =
      st.calcCount + 1) ∧
    ((SerState.Recalculate^[n] st).handleRecalc.1.handleWait.2 =
      [REvent.closeDone]) := by
  rw [recalculate_iterate hn]
  obtain ⟨h1, h2, h3, h4, h5, h6, h7, h8⟩ := calculate_fields st.routes
  refine ⟨rfl, ?_, ?_, ?_, ?_, ?_⟩ <;>
    simp [SerState.Recalculate, SerState.handleWait, SerState.handleRecalc, h8]

/-- Witness for C3 at a concrete idle serializer state and a burst of three
calls. -/
theorem recalculation_coalescing_witness :
    ((⟨NewRoutes 1 ⟨[]⟩, false, 0⟩ : SerState).pending = false ∧ 1 ≤ 3) ∧
    (SerState.Recalculate^[3] ⟨NewRoutes 1 ⟨[]⟩, false, 0⟩ =
      (⟨NewRoutes 1 ⟨[]⟩, false, 0⟩ : SerState).Recalculate ∧
     (SerState.Recalculate^[3]
        (⟨NewRoutes 1 ⟨[]⟩, false, 0⟩ : SerState)).handleWait.1.calcCount = 0 + 1 ∧
     (SerState.Recalculate^[3]
        (⟨NewRoutes 1 ⟨[]⟩, false, 0⟩ : SerState)).handleWait.2 =
      (NewRoutes 1 ⟨[]⟩).onChange.map REvent.callback ++ [REvent.closeDone] ∧
     (SerState.Recalculate^[3]
        (⟨NewRoutes 1 ⟨[]⟩, false, 0⟩ : SerState)).handleRecalc.1.calcCount = 0 + 1 ∧
     (SerState.Recalculate^[3]
        (⟨NewRoutes 1 ⟨[]⟩, false, 0⟩ : SerState)).handleRecalc.1.handleWait.1.calcCount
        = 0 + 1 ∧
     (SerState.Recalculate^[3]
        (⟨NewRoutes 1 ⟨[]⟩, false, 0⟩ : SerState)).handleRecalc.1.handleWait.2 =
      [REvent.closeDone]) :=
  ⟨⟨rfl, by decide⟩,
   recalculation_coalescing ⟨NewRoutes 1 ⟨[]⟩, false, 0⟩ 3 rfl (by decide)⟩

/-! ### Claim theorem: C8 -/

theorem computeCount_append (name : PeerName) (f : Bool) (l₁ l₂ : List REvent) :
    computeCount name f (l₁ ++ l₂) =
      computeCount name f l₁ + computeCount name f l₂ := by
  simp [computeCount, List.countP_append]

theorem processFills_cons (s : RoutesState) (n : PeerName) (g : Bool)
    (rest : List (PeerName × Bool)) :
    processFills s ((n, g) :: rest) =
      ((processFills (s.fillAction n g).2.1 rest).1,
       (s.fillAction n g).2.2 ++ (processFills (s.fillAction n g).2.1 rest).2) :=
  rfl

theorem fillAction_preserves_present (s : RoutesState) (n : PeerName) (g : Bool)
    (k : PeerName) (f : Bool)
    (h : ((s.getBroadcastTable f).lookup k).isSome = true) :
    ((((s.fillAction n g).2.1).getBroadcastTable f).lookup k).isSome = true := by
  cases hl : (s.getBroadcastTable g).lookup n with
  | some hops => rw [fillAction_of_present hl]; exact h
  | none =>
    rw [fillAction_of_absent hl, get_set]
    by_cases hf : f = g
    · rw [if_pos hf]; subst hf; exact isSome_lookup_cons _ _ _ _ h
    · rw [if_neg hf]; exact h

theorem processFills_count_zero (name : PeerName) (f : Bool) :
    ∀ (reqs : List (PeerName × Bool)) (s : RoutesState),
      ((s.getBroadcastTable f).lookup name).isSome = true →
      computeCount name f (processFills s reqs).2 = 0 := by
  intro reqs
  induction reqs with
  | nil => intro s _; simp [processFills, computeCount]
  | cons req rest ih =>
    intro s h
    obtain ⟨n, g⟩ := req
    rw [processFills_cons]
    simp only []
    rw [computeCount_append, ih _ (fillAction_preserves_present s n g name f h)]
    cases hl : (s.getBroadcastTable g).lookup n with
    | some hops => rw [fillAction_of_present hl]; simp [computeCount]
    | none =>
      rw [fillAction_of_absent hl]
      have hne : ¬(n = name ∧ g = f) := by
        rintro ⟨rfl, rfl⟩
        rw [hl] at h
        cases h
      simp [computeCount, List.countP_cons, hne]

theorem processFills_count_le_one (name : PeerName) (f : Bool) :
    ∀ (reqs : List (PeerName × Bool)) (s : RoutesState),
      computeCount name f (processFills s reqs).2 ≤ 1 := by
  intro reqs
  induction reqs with
  | nil => intro s; simp [processFills, computeCount]
  | cons req rest ih =>
    intro s
    obtain ⟨n, g⟩ := req
    rw [processFills_cons]
    simp only []
    rw [computeCount_append]
    by_cases hpair : n = name ∧ g = f
    · obtain ⟨rfl, rfl⟩ := hpair
      cases hl : (s.getBroadcastTable g).lookup n with
      | some hops =>
        rw [fillAction_of_present hl]
        show computeCount n g [REvent.reply hops] +
          computeCount n g (processFills s rest).2 ≤ 1
        rw [processFills_count_zero n g rest s (by rw [hl]; rfl)]
        simp [computeCount]
      | none =>
        have hpres : ((((s.fillAction n g).2.1).getBroadcastTable g).lookup n).isSome
            = true := by
          rw [fillAction_of_absent hl, get_set_same, lookup_cons_self]
          rfl
        rw [processFills_count_zero n g rest _ hpres, fillAction_of_absent hl]
        simp [computeCount, List.countP_cons]
    · have hhead : computeCount name f (s.fillAction n g).2.2 = 0 := by
        cases hl : (s.getBroadcastTable g).lookup n with
        | some hops => rw [fillAction_of_present hl]; simp [computeCount]
        | none =>
          rw [fillAction_of_absent hl]
          simp [computeCount, List.countP_cons, hpair]
      rw [hhead]
      simpa using ih (s.fillAction n g).2.1

/-- Claim C8: serialized double-check of the broadcast cache.  For any queue
of lazy-fill requests processed by the serializer between two full
recalculations --- in particular several concurrent misses for the same
origin --- the broadcast derivation runs at most once per (origin, table)
pair, and never runs at all for an origin already present in that table,
because each serialized action re-checks the table before computing. -/
theorem serialized_double_check (s : RoutesState) (reqs : List (PeerName × Bool))
    (name : PeerName) (f : Bool) :
    computeCount name f (processFills s reqs).2 ≤ 1 ∧
    (((s.getBroadcastTable f).lookup name).isSome = true →
      computeCount name f (processFills s reqs).2 = 0) :=
  ⟨processFills_count_le_one name f reqs s,
   fun h => processFills_count_zero name f reqs s h⟩

/-- Witness for C8: two concurrent misses for the same uncached origin, and a
cached origin that is never recomputed. -/
theorem serialized_double_check_witness :
    (computeCount 1 true (processFills (NewRoutes 1 ⟨[]⟩)
        [(7, true), (7, true)]).2 ≤ 1 ∧
      ((((NewRoutes 1 ⟨[]⟩).getBroadcastTable true).lookup 1).isSome = true →
        computeCount 1 true (processFills (NewRoutes 1 ⟨[]⟩)
          [(7, true), (7, true)]).2 = 0)) ∧
    (((NewRoutes 1 ⟨[]⟩).getBroadcastTable true).lookup 1).isSome = true ∧
    computeCount 1 true (processFills (NewRoutes 1 ⟨[]⟩)
      [(7, true), (7, true)]).2 = 0 :=
  ⟨serialized_double_check (NewRoutes 1 ⟨[]⟩) [(7, true), (7, true)] 1 true,
   by decide,
   (serialized_double_check (NewRoutes 1 ⟨[]⟩) [(7, true), (7, true)] 1 true).2
     (by decide)⟩

/-! ### Claim theorem: C7 -/

theorem mem_reachStep {es : List (PeerName × PeerName)} {s : List PeerName}
    {x : PeerName} :
    x ∈ reachStep es s ↔ x ∈ s ∨ ∃ e ∈ es, e.1 ∈ s ∧ e.2 = x := by
  simp [reachStep, List.mem_filter]

theorem reachStep_mono {es₁ es₂ : List (PeerName × PeerName)}
    {s₁ s₂ : List PeerName} (he : ∀ e ∈ es₁, e ∈ es₂)
    (hs : ∀ x ∈ s₁, x ∈ s₂) :
    ∀ x ∈ reachStep es₁ s₁, x ∈ reachStep es₂ s₂ := by
  intro x hx
  rcases mem_reachStep.mp hx with h | ⟨e, he1, he2, he3⟩
  · exact mem_reachStep.mpr (Or.inl (hs x h))
  · exact mem_reachStep.mpr (Or.inr ⟨e, he e he1, hs e.1 he2, he3⟩)

theorem reachIter_mono {es₁ es₂ : List (PeerName × PeerName)}
    (he : ∀ e ∈ es₁, e ∈ es₂) :
    ∀ (n : Nat) (s₁ s₂ : List PeerName), (∀ x ∈ s₁, x ∈ s₂) →
      ∀ x ∈ reachIter es₁ n s₁, x ∈ reachIter es₂ n s₂ := by
  intro n
  induction n with
  | zero => intro s₁ s₂ hs x hx; exact hs x hx
  | succ m ih =>
    intro s₁ s₂ hs x hx
    exact ih (reachStep es₁ s₁) (reachStep es₂ s₂) (reachStep_mono he hs) x hx

theorem edges_mono (ps : Peers) :
    ∀ e ∈ ps.edges true, e ∈ ps.edges false := by
  intro e he
  simp only [Peers.edges, List.mem_flatMap] at he ⊢
  obtain ⟨p, hp, he⟩ := he
  refine ⟨p, hp, ?_⟩
  simp only [List.mem_map, List.mem_filter] at he ⊢
  obtain ⟨c, ⟨hc, _⟩, hce⟩ := he
  exact ⟨c, ⟨hc, rfl⟩, hce⟩

theorem reachableFrom_mono (ps : Peers) (src : PeerName) :
    ∀ x ∈ reachableFrom ps src true, x ∈ reachableFrom ps src false := by
  intro x hx
  unfold reachableFrom at hx ⊢
  rw [List.mem_dedup] at hx ⊢
  exact reachIter_mono (edges_mono ps) ps.peers.length [src] [src]
    (fun _ h => h) x hx

theorem mem_tableKeys_peerRoutesTable {ps : Peers} {src : PeerName} {f : Bool}
    {x : PeerName} :
    x ∈ tableKeys (peerRoutesTable ps src f) ↔
      x = src ∨ (x ∈ reachableFrom ps src f ∧ x ≠ src) := by
  simp [tableKeys, peerRoutesTable, List.mem_filter, and_comm]

/-- The modelled next-hop table is a genuine mapping: its destination keys are
pairwise distinct, so its length is the number of distinct destinations,
matching the entry count of the source's map. -/
theorem tableKeys_peerRoutesTable_nodup (ps : Peers) (src : PeerName) (f : Bool) :
    (tableKeys (peerRoutesTable ps src f)).Nodup := by
  have hkeys : tableKeys (peerRoutesTable ps src f) =
      src :: (reachableFrom ps src f).filter (fun d => d != src) := by
    simp [tableKeys, peerRoutesTable, List.map_map, Function.comp_def,
      List.map_id']
  rw [hkeys]
  have hnd : (reachableFrom ps src f).Nodup := List.nodup_dedup _
  refine List.Nodup.cons ?_ (List.Nodup.filter _ hnd)
  intro hmem
  have h2 := (List.mem_filter.mp hmem).2
  simp at h2

/-- Claim C7: filter monotonicity.  The destination keys of the
established-and-symmetric unicast table are contained in those of the
all-connections table; the reachability table constraining the broadcast
derivation for an origin `X` under the established-and-symmetric filter is
key-contained in the one under the all-connections filter; and if the local
peer is reachable from `X` under the restricted filter it is reachable
under the unrestricted one --- because established-and-symmetric
connections are a subset of all connections. -/
theorem filter_monotonicity (s : RoutesState) (X x : PeerName) :
    (x ∈ tableKeys (s.calculateUnicast true) →
      x ∈ tableKeys (s.calculateUnicast false)) ∧
    (x ∈ tableKeys (peerRoutes s.peers X (some s.ourselfName) true).2 →
      x ∈ tableKeys (peerRoutes s.peers X (some s.ourselfName) false).2) ∧
    ((peerRoutes s.peers X (some s.ourselfName) true).1 = true →
      (peerRoutes s.peers X (some s.ourselfName) false).1 = true) := by
  refine ⟨?_, ?_, ?_⟩
  · intro hx
    have hx' : x ∈ tableKeys (peerRoutesTable s.peers s.ourselfName true) := hx
    rcases mem_tableKeys_peerRoutesTable.mp hx' with h | ⟨h1, h2⟩
    · exact mem_tableKeys_peerRoutesTable.mpr (Or.inl h)
    · exact mem_tableKeys_peerRoutesTable.mpr
        (Or.inr ⟨reachableFrom_mono s.peers s.ourselfName x h1, h2⟩)
  · intro hx
    have hx' : x ∈ tableKeys (peerRoutesTable s.peers X true) := hx
    rcases mem_tableKeys_peerRoutesTable.mp hx' with h | ⟨h1, h2⟩
    · exact mem_tableKeys_peerRoutesTable.mpr (Or.inl h)
    · exact mem_tableKeys_peerRoutesTable.mpr
        (Or.inr ⟨reachableFrom_mono s.peers X x h1, h2⟩)
  · intro hf
    have hm : s.ourselfName ∈ reachableFrom s.peers X true := by
      simpa [peerRoutes] using hf
    simpa [peerRoutes] using reachableFrom_mono s.peers X s.ourselfName hm

/-- Witness for C7: a two-peer topology; the local peer's name is a key of
both tables and the local peer is reachable from itself. -/
theorem filter_monotonicity_witness :
    (1 ∈ tableKeys ((NewRoutes 1
        ⟨[⟨1, [⟨2, true, true⟩]⟩, ⟨2, [⟨1, true, true⟩]⟩]⟩).calculateUnicast true) ∧
      1 ∈ tableKeys ((NewRoutes 1
        ⟨[⟨1, [⟨2, true, true⟩]⟩, ⟨2, [⟨1, true, true⟩]⟩]⟩).calculateUnicast false)) ∧
    (2 ∈ tableKeys (peerRoutes (NewRoutes 1
        ⟨[⟨1, [⟨2, true, true⟩]⟩, ⟨2, [⟨1, true, true⟩]⟩]⟩).peers 1 (some 1) true).2 ∧
      2 ∈ tableKeys (peerRoutes (NewRoutes 1
        ⟨[⟨1, [⟨2, true, true⟩]⟩, ⟨2, [⟨1, true, true⟩]⟩]⟩).peers 1 (some 1) false).2) ∧
    ((peerRoutes (NewRoutes 1
        ⟨[⟨1, [⟨2, true, true⟩]⟩, ⟨2, [⟨1, true, true⟩]⟩]⟩).peers 1 (some 1) true).1
        = true ∧
      (peerRoutes (NewRoutes 1
        ⟨[⟨1, [⟨2, true, true⟩]⟩, ⟨2, [⟨1, true, true⟩]⟩]⟩).peers 1 (some 1) false).1
        = true) := by
  refine ⟨⟨by decide, ?_⟩, ⟨by decide, ?_⟩, by decide, ?_⟩
  · exact (filter_monotonicity (NewRoutes 1
      ⟨[⟨1, [⟨2, true, true⟩]⟩, ⟨2, [⟨1, true, true⟩]⟩]⟩) 1 1).1 (by decide)
  · exact (filter_monotonicity (NewRoutes 1
      ⟨[⟨1, [⟨2, true, true⟩]⟩, ⟨2, [⟨1, true, true⟩]⟩]⟩) 1 2).2.1 (by decide)
  · exact (filter_monotonicity (NewRoutes 1
      ⟨[⟨1, [⟨2, true, true⟩]⟩, ⟨2, [⟨1, true, true⟩]⟩]⟩) 1 1).2.2 (by decide)

/-! ### Claim theorem: C5 -/

theorem mem_insertName {x n : PeerName} {s : List PeerName} :
    x ∈ insertName n s ↔ x = n ∨ x ∈ s := by
  unfold insertName
  by_cases h : n ∈ s
  · rw [if_pos h]
    constructor
    · exact Or.inr
    · rintro (rfl | hx)
      · exact h
      · exact hx
  · rw [if_neg h]
    simp

theorem nodup_insertName {n : PeerName} {s : List PeerName} (h : s.Nodup) :
    (insertName n s).Nodup := by
  unfold insertName
  by_cases hm : n ∈ s
  · rw [if_pos hm]; exact h
  · rw [if_neg hm]; exact List.Nodup.cons hm h

theorem length_insertName_le (n : PeerName) (s : List PeerName) :
    (insertName n s).length ≤ s.length + 1 := by
  unfold insertName
  by_cases hm : n ∈ s
  · rw [if_pos hm]; exact Nat.le_succ _
  · rw [if_neg hm]; exact Nat.le_refl _

theorem sampleLoop_nodup (c : Nat) (e : PeerName) :
    ∀ (entries : List (PeerName × PeerName)) (dests : List PeerName),
      dests.Nodup → (sampleLoop c e entries dests).Nodup := by
  intro entries
  induction entries with
  | nil => intro dests h; exact h
  | cons p rest ih =>
    intro dests h
    obtain ⟨k, dst⟩ := p
    unfold sampleLoop
    by_cases hel : dst ≠ UnknownPeerName ∧ dst ≠ e
    · rw [if_pos hel]
      by_cases hc : c ≤ (insertName dst dests).length
      · rw [if_pos hc]; exact nodup_insertName h
      · rw [if_neg hc]; exact ih _ (nodup_insertName h)
    · rw [if_neg hel]; exact ih _ h

theorem sampleLoop_mem (c : Nat) (e : PeerName) :
    ∀ (entries : List (PeerName × PeerName)) (dests : List PeerName)
      (x : PeerName), x ∈ sampleLoop c e entries dests →
      x ∈ dests ∨ ((∃ k, (k, x) ∈ entries) ∧ x ≠ UnknownPeerName ∧ x ≠ e) := by
  intro entries
  induction entries with
  | nil => intro dests x hx; exact Or.inl hx
  | cons p rest ih =>
    intro dests x hx
    obtain ⟨k, dst⟩ := p
    unfold sampleLoop at hx
    by_cases hel : dst ≠ UnknownPeerName ∧ dst ≠ e
    · rw [if_pos hel] at hx
      have hins : x ∈ insertName dst dests →
          x ∈ dests ∨ ((∃ k2, (k2, x) ∈ (k, dst) :: rest) ∧
            x ≠ UnknownPeerName ∧ x ≠ e) := by
        intro hxi
        rcases mem_insertName.mp hxi with rfl | hxd
        · exact Or.inr ⟨⟨k, List.mem_cons_self _ _⟩, hel⟩
        · exact Or.inl hxd
      by_cases hc : c ≤ (insertName dst dests).length
      · rw [if_pos hc] at hx
        exact hins hx
      · rw [if_neg hc] at hx
        rcases ih _ x hx with h | ⟨⟨k2, hk2⟩, h2, h3⟩
        · exact hins h
        · exact Or.inr ⟨⟨k2, List.mem_cons_of_mem _ hk2⟩, h2, h3⟩
    · rw [if_neg hel] at hx
      rcases ih _ x hx with h | ⟨⟨k2, hk2⟩, h2, h3⟩
      · exact Or.inl h
      · exact Or.inr ⟨⟨k2, List.mem_cons_of_mem _ hk2⟩, h2, h3⟩

theorem sampleLoop_length_le (c : Nat) (e : PeerName) :
    ∀ (entries : List (PeerName × PeerName)) (dests : List PeerName),
      dests.length < c → (sampleLoop c e entries dests).length ≤ c := by
  intro entries
  induction entries with
  | nil => intro dests h; exact Nat.le_of_lt h
  | cons p rest ih =>
    intro dests h
    obtain ⟨k, dst⟩ := p
    unfold sampleLoop
    by_cases hel : dst ≠ UnknownPeerName ∧ dst ≠ e
    · rw [if_pos hel]
      have hlen : (insertName dst dests).length ≤ c :=
        Nat.le_trans (length_insertName_le dst dests) (Nat.succ_le_of_lt h)
      by_cases hc : c ≤ (insertName dst dests).length
      · rw [if_pos hc]; exact hlen
      · rw [if_neg hc]; exact ih _ (Nat.lt_of_not_le hc)
    · rw [if_neg hel]; exact ih _ h

theorem sampleLoop_no_eligible (c : Nat) (e : PeerName) :
    ∀ (entries : List (PeerName × PeerName)) (dests : List PeerName),
      (∀ p ∈ entries, p.2 = UnknownPeerName ∨ p.2 = e) →
      sampleLoop c e entries dests = dests := by
  intro entries
  induction entries with
  | nil => intro dests _; rfl
  | cons p rest ih =>
    intro dests h
    obtain ⟨k, dst⟩ := p
    have hd := h (k, dst) (List.mem_cons_self _ _)
    unfold sampleLoop
    have hel : ¬(dst ≠ UnknownPeerName ∧ dst ≠ e) := by
      rcases hd with h1 | h1 <;> intro hc
      · exact hc.1 h1
      · exact hc.2 h1
    rw [if_neg hel]
    exact ih _ (fun q hq => h q (List.mem_cons_of_mem _ hq))

theorem one_le_log2 {n : Nat} (h : 2 ≤ n) : 1 ≤ Nat.log2 n := by
  rw [Nat.log2_eq_log_two]
  exact Nat.log_pos Nat.one_lt_two h

theorem nodup_subset_dedup_length {r l : List PeerName} (hn : r.Nodup)
    (hs : ∀ x ∈ r, x ∈ l) : r.length ≤ l.dedup.length := by
  classical
  have h1 : r.toFinset.card = r.length := List.toFinset_card_of_nodup hn
  have h2 : r.toFinset ⊆ l.toFinset := by
    intro x hx
    rw [List.mem_toFinset] at hx ⊢
    exact hs x hx
  have h3 : l.toFinset.card = l.dedup.length := List.card_toFinset l
  calc r.length = r.toFinset.card := h1.symm
    _ ≤ l.toFinset.card := Finset.card_le_card h2
    _ = l.dedup.length := h3

/-- Claim C5: sampler bound.  In every reachable state and for every excluded
name and every iteration order over the `unicastAll` table, the sampler
returns a list of distinct names whose length is at most the minimum of
`floor(log2(peerCount))` (the table's entry count) and the number of distinct
eligible next-hop values, and no returned name equals the excluded name or
the sentinel. -/
theorem sampler_bound (s : RoutesState) (except : PeerName)
    (order : List (PeerName × PeerName)) (hord : order.Perm s.unicastAll)
    (hreach : Reachable s) :
    (s.RandomNeighbours except order).Nodup ∧
    (s.RandomNeighbours except order).length ≤
      min (Nat.log2 s.unicastAll.length)
        (distinctNeighbours s.unicastAll except) ∧
    (∀ x ∈ s.RandomNeighbours except order, x ≠ except ∧ x ≠ UnknownPeerName) := by
  have hselfAll := (reachable_selfInv hreach).2.1
  have hnodup : (s.RandomNeighbours except order).Nodup :=
    sampleLoop_nodup _ _ order [] List.nodup_nil
  have hmemr : ∀ x ∈ s.RandomNeighbours except order,
      x ≠ except ∧ x ≠ UnknownPeerName := by
    intro x hx
    rcases sampleLoop_mem _ _ order [] x hx with h | ⟨_, hU, hE⟩
    · cases h
    · exact ⟨hE, hU⟩
  have hsub : ∀ x ∈ s.RandomNeighbours except order,
      x ∈ (s.unicastAll.map (fun e => e.2)).filter
        (fun d => d != UnknownPeerName && d != except) := by
    intro x hx
    rcases sampleLoop_mem _ _ order [] x hx with h | ⟨⟨k, hk⟩, hU, hE⟩
    · cases h
    · rw [List.mem_filter]
      refine ⟨?_, ?_⟩
      · rw [List.mem_map]
        exact ⟨(k, x), hord.mem_iff.mp hk, rfl⟩
      · simp [hU, hE]
  have hdist : (s.RandomNeighbours except order).length ≤
      distinctNeighbours s.unicastAll except :=
    nodup_subset_dedup_length hnodup hsub
  refine ⟨hnodup, ?_, hmemr⟩
  rcases Nat.lt_or_ge s.unicastAll.length 2 with hlt | hge
  · have hpos : 0 < s.unicastAll.length :=
      List.length_pos.mpr (List.ne_nil_of_mem (lookup_mem hselfAll))
    have h1 : s.unicastAll.length = 1 := by omega
    obtain ⟨a, ha⟩ := List.length_eq_one.mp h1
    have hm : ((s.ourselfName, UnknownPeerName) : PeerName × PeerName)
        ∈ s.unicastAll := lookup_mem hselfAll
    rw [ha] at hm
    have ha2 : a = (s.ourselfName, UnknownPeerName) :=
      (List.mem_singleton.mp hm).symm
    have hordeq : order = [a] := List.perm_singleton.mp (by rw [← ha]; exact hord)
    have hempty : s.RandomNeighbours except order = [] := by
      show sampleLoop (Nat.log2 s.unicastAll.length) except order [] = []
      apply sampleLoop_no_eligible
      intro p hp
      rw [hordeq] at hp
      rw [List.mem_singleton.mp hp, ha2]
      exact Or.inl rfl
    rw [hempty]
    exact Nat.zero_le _
  · exact le_min (sampleLoop_length_le _ _ order [] (one_le_log2 hge)) hdist

/-- Witness for C5: the freshly constructed single-peer state, whose only
table entry carries the sentinel, yields the empty sample. -/
theorem sampler_bound_witness :
    (([(1, 0)] : List (PeerName × PeerName)).Perm
        (NewRoutes 1 ⟨[]⟩).unicastAll ∧
      Reachable (NewRoutes 1 ⟨[]⟩)) ∧
    (((NewRoutes 1 ⟨[]⟩).RandomNeighbours 2 [(1, 0)]).Nodup ∧
     ((NewRoutes 1 ⟨[]⟩).RandomNeighbours 2 [(1, 0)]).length ≤
       min (Nat.log2 (NewRoutes 1 ⟨[]⟩).unicastAll.length)
         (distinctNeighbours (NewRoutes 1 ⟨[]⟩).unicastAll 2) ∧
     (∀ x ∈ (NewRoutes 1 ⟨[]⟩).RandomNeighbours 2 [(1, 0)],
       x ≠ 2 ∧ x ≠ UnknownPeerName)) :=
  ⟨⟨List.Perm.refl _, Reachable.init 1 ⟨[]⟩⟩,
   sampler_bound (NewRoutes 1 ⟨[]⟩) 2 [(1, 0)] (List.Perm.refl _)
     (Reachable.init 1 ⟨[]⟩)⟩

end Mesh
